import Mathlib

/-!
# Verification of the plaque-counter detection pipeline

A shallow embedding of the detection core of `src/model/plaque_detector.py`
(class `PlaqueDetector`): the preprocessing step, the two candidate
generators (`segment_plaques`'s Hough path and `detect_by_thresholding`),
and the greedy non-maximum-suppression merger (`non_max_suppression`).

Modelling conventions:
* Python ints are `Int`; Python floats that arise in this pipeline carry
  exact decimal values (confidences 0.8 / 0.7, the constant 3.14, ratios of
  integer box areas, `cv2.contourArea` results), so they are modelled as
  exact rationals `ℚ`.  Every rational literal is built with `mkRat` /
  `Rat.divInt` so that concrete runs reduce inside the kernel.
* The external OpenCV primitives (`cv2.imread`, `cv2.HoughCircles`,
  `cv2.findContours`, `cv2.contourArea`, `cv2.minEnclosingCircle`,
  the blur/CLAHE/threshold/morphology image transforms) are not part of the
  repository; they are parameters of the embedding, gathered in `CVPrims`.
  Image and contour contents never influence the verified control flow, so
  they are opaque tokens.
* `np.argsort(boxes[:, 4])` is modelled as a stable insertion sort of the
  index list by confidence.  (NumPy's default sort is only guaranteed
  deterministic, not stable; on the small concrete inputs used below it
  coincides with the stable sort.)
-/

namespace PlaqueCounter

/-- A detection record, the dict `{'x', 'y', 'radius', 'confidence'}` built by
`segment_plaques` / `detect_by_thresholding`. -/
structure Detection where
  x : Int
  y : Int
  radius : Int
  confidence : ℚ
deriving DecidableEq, Repr, Inhabited

/-- Left edge `x - r` of the axis-aligned box built in `non_max_suppression`
(`boxes.append([x - r, y - r, x + r, y + r, det['confidence']])`). -/
def boxX1 (d : Detection) : Int := d.x - d.radius

/-- Top edge `y - r` of the suppression box. -/
def boxY1 (d : Detection) : Int := d.y - d.radius

/-- Right edge `x + r` of the suppression box. -/
def boxX2 (d : Detection) : Int := d.x + d.radius

/-- Bottom edge `y + r` of the suppression box. -/
def boxY2 (d : Detection) : Int := d.y + d.radius

/-- Pixel area `(x2 - x1 + 1) * (y2 - y1 + 1)` of a detection's box, the
denominator of the overlap ratio in `non_max_suppression`. -/
def boxArea (d : Detection) : Int :=
  (boxX2 d - boxX1 d + 1) * (boxY2 d - boxY1 d + 1)

/-- Clamped intersection width `w = max(0, xx2 - xx1 + 1)` of two boxes. -/
def interW (a b : Detection) : Int :=
  max 0 (min (boxX2 a) (boxX2 b) - max (boxX1 a) (boxX1 b) + 1)

/-- Clamped intersection height `h = max(0, yy2 - yy1 + 1)` of two boxes. -/
def interH (a b : Detection) : Int :=
  max 0 (min (boxY2 a) (boxY2 b) - max (boxY1 a) (boxY1 b) + 1)

/-- The overlap ratio computed in `non_max_suppression`:
`overlap = (w * h) / area(compared box)` — the intersection area divided by
the area of the *compared* box `b` (not the union).  `b`'s box area is an odd
number squared, hence never zero. -/
def overlap (a b : Detection) : ℚ :=
  Rat.divInt (interW a b * interH a b) (boxArea b)

/-- Confidence comparison used by `np.argsort(boxes[:, 4])`. -/
def confLE (a b : Detection) : Prop := a.confidence ≤ b.confidence

instance : DecidableRel confLE :=
  fun a b => inferInstanceAs (Decidable (a.confidence ≤ b.confidence))

instance : IsTotal Detection confLE := ⟨fun a b => le_total a.confidence b.confidence⟩

instance : IsTrans Detection confLE := ⟨fun _ _ _ h₁ h₂ => le_trans h₁ h₂⟩

/-- The `while len(idxs) > 0` loop of `non_max_suppression`, acting on the
index list `idxs` (sorted ascending by confidence).  Each round takes the
last index `i` (highest confidence), appends it to `pick`, and deletes from
the remaining prefix every index whose overlap with `i` exceeds the
threshold.  The loop consumes at least one index per round, so running it
with fuel `idxs.length` reproduces the `while` loop exactly. -/
def nmsLoopF (d : Nat → Detection) (t : ℚ) : Nat → List Nat → List Nat
  | 0, _ => []
  | _ + 1, [] => []
  | fuel + 1, a :: l =>
    let i := (a :: l).getLast (List.cons_ne_nil a l)
    i :: nmsLoopF d t fuel
      (((a :: l).dropLast).filter fun j => decide (overlap (d i) (d j) ≤ t))

/-- `PlaqueDetector.non_max_suppression(detections, overlap_thresh)`:
build one box per detection, argsort by confidence, run the greedy deletion
loop, and return `[detections[i] for i in pick]`. -/
def non_max_suppression (detections : List Detection) (overlap_thresh : ℚ) :
    List Detection :=
  if detections.isEmpty then [] else
    let d : Nat → Detection := fun i => detections.getD i default
    let idxs := List.insertionSort (fun i j => confLE (d i) (d j))
      (List.range detections.length)
    (nmsLoopF d overlap_thresh idxs.length idxs).map d

/-- The default `overlap_thresh=0.5` of `non_max_suppression`, applied at its
single call site in `segment_plaques`. -/
def defaultOverlapThresh : ℚ := mkRat 1 2

/-- Modelled from the spec, §4.4 steps 2–3: the greedy pass over the
detections themselves, highest remaining confidence first (the input here is
sorted descending), keeping the current best and discarding every remaining
detection whose overlap ratio with it exceeds the threshold. -/
def greedyDF (t : ℚ) : Nat → List Detection → List Detection
  | 0, _ => []
  | _ + 1, [] => []
  | fuel + 1, best :: rest =>
    best :: greedyDF t fuel (rest.filter fun e => decide (overlap best e ≤ t))

/-- `greedyDF` with enough fuel to exhaust its input. -/
def greedyD (t : ℚ) (l : List Detection) : List Detection := greedyDF t l.length l

/-- Modelled from the spec, §4.4 (`suppress`): sort by confidence ascending,
then repeatedly take the remaining detection of highest confidence (the end
of the ascending order, i.e. the front of the reversed list) and discard
every remaining detection overlapping it beyond the threshold. -/
def specSuppress (t : ℚ) (dets : List Detection) : List Detection :=
  greedyD t ((List.insertionSort confLE dets).reverse)

/-! ## Equivalence of the index-based loop with the spec's greedy pass -/

/-- A nonempty list is its last element consed onto the reverse of the rest. -/
theorem reverse_eq_getLast_cons {α : Type} (xs : List α) (h : xs ≠ []) :
    xs.reverse = xs.getLast h :: xs.dropLast.reverse := by
  conv_lhs => rw [← List.dropLast_append_getLast h]
  rw [List.reverse_append]
  rfl

/-- Mapping a function commutes with `orderedInsert` when the order is pulled
back along that function. -/
theorem map_orderedInsert {α β : Type} (f : α → β) (r : β → β → Prop)
    [DecidableRel r] (a : α) :
    ∀ xs : List α,
      (List.orderedInsert (fun x y => r (f x) (f y)) a xs).map f
        = List.orderedInsert r (f a) (xs.map f)
  | [] => rfl
  | b :: l => by
    by_cases h : r (f a) (f b)
    · simp [List.orderedInsert, h]
    · simp [List.orderedInsert, h, map_orderedInsert f r a l]

/-- Mapping a function commutes with `insertionSort` when the order is pulled
back along that function (argsort as sort-of-the-mapped-list). -/
theorem map_insertionSort {α β : Type} (f : α → β) (r : β → β → Prop)
    [DecidableRel r] :
    ∀ xs : List α,
      (List.insertionSort (fun x y => r (f x) (f y)) xs).map f
        = List.insertionSort r (xs.map f)
  | [] => rfl
  | a :: l => by
    simp only [List.insertionSort]
    rw [map_orderedInsert f r a, map_insertionSort f r l]

/-- Indexing `range` back into the list recovers the list. -/
theorem map_getD_range {α : Type} [Inhabited α] :
    ∀ l : List α, (List.range l.length).map (fun i => l.getD i default) = l
  | [] => rfl
  | a :: l => by
    rw [List.length_cons, List.range_succ_eq_map, List.map_cons, List.map_map]
    have h : (List.range l.length).map ((fun i => (a :: l).getD i default) ∘ Nat.succ)
        = (List.range l.length).map (fun i => l.getD i default) :=
      List.map_congr_left fun i _ => rfl
    rw [h, map_getD_range l]
    rfl

/-- Mapping indices to detections commutes with filtering by overlap against
a fixed detection. -/
theorem map_filter_overlap (d : Nat → Detection) (b : Detection) (t : ℚ) :
    ∀ xs : List Nat,
      ((xs.filter fun j => decide (overlap b (d j) ≤ t)).map d)
        = (xs.map d).filter fun e => decide (overlap b e ≤ t)
  | [] => rfl
  | x :: xs => by
    by_cases h : overlap b (d x) ≤ t <;>
      simp [h, map_filter_overlap d b t xs]

/-- The index-based suppression loop computes the spec's greedy pass on the
reversed (descending-confidence) list of detections. -/
theorem map_nmsLoopF (d : Nat → Detection) (t : ℚ) :
    ∀ (fuel : Nat) (l : List Nat),
      (nmsLoopF d t fuel l).map d = greedyDF t fuel ((l.map d).reverse)
  | 0, _ => rfl
  | _ + 1, [] => rfl
  | fuel + 1, a :: l => by
    have hne : (a :: l) ≠ [] := List.cons_ne_nil a l
    have hm : ((a :: l).map d) ≠ [] := by simp
    rw [show nmsLoopF d t (fuel + 1) (a :: l)
        = (a :: l).getLast hne
          :: nmsLoopF d t fuel (((a :: l).dropLast).filter
              fun j => decide (overlap (d ((a :: l).getLast hne)) (d j) ≤ t))
      from rfl]
    rw [List.map_cons, map_nmsLoopF d t fuel]
    rw [reverse_eq_getLast_cons ((a :: l).map d) hm]
    rw [show greedyDF t (fuel + 1)
          (((a :: l).map d).getLast hm :: ((a :: l).map d).dropLast.reverse)
        = ((a :: l).map d).getLast hm
          :: greedyDF t fuel ((((a :: l).map d).dropLast.reverse).filter
              fun e => decide (overlap (((a :: l).map d).getLast hm) e ≤ t))
      from rfl]
    rw [List.getLast_map]
    congr 1
    rw [map_filter_overlap d ((a :: l).getLast hne |> d) t, ← List.map_dropLast,
      List.filter_reverse]

/-- `non_max_suppression` is the spec's suppression procedure (§4.4): sort by
confidence ascending, then greedily keep the highest-confidence remaining
detection and drop everything overlapping it beyond the threshold. -/
theorem nms_eq_spec (dets : List Detection) (t : ℚ) :
    non_max_suppression dets t = specSuppress t dets := by
  cases dets with
  | nil => rfl
  | cons a l =>
    show (nmsLoopF (fun i => (a :: l).getD i default) t
        (List.insertionSort
          (fun i j => confLE ((a :: l).getD i default) ((a :: l).getD j default))
          (List.range (a :: l).length)).length
        (List.insertionSort
          (fun i j => confLE ((a :: l).getD i default) ((a :: l).getD j default))
          (List.range (a :: l).length))).map (fun i => (a :: l).getD i default)
      = specSuppress t (a :: l)
    rw [map_nmsLoopF]
    rw [map_insertionSort (fun i => (a :: l).getD i default) confLE, map_getD_range]
    rw [specSuppress, greedyD, List.length_reverse,
      (List.perm_insertionSort confLE (a :: l)).length_eq,
      (List.perm_insertionSort
          (fun i j => confLE ((a :: l).getD i default) ((a :: l).getD j default))
          (List.range (a :: l).length)).length_eq,
      List.length_range]

/-! ## Structural properties of the greedy pass -/

/-- The greedy pass keeps a sublist of its input: nothing is altered,
fabricated, or duplicated. -/
theorem greedyDF_sublist (t : ℚ) :
    ∀ (fuel : Nat) (l : List Detection), (greedyDF t fuel l).Sublist l
  | 0, _ => List.nil_sublist _
  | _ + 1, [] => List.nil_sublist _
  | fuel + 1, b :: _ =>
    List.Sublist.cons₂ b
      ((greedyDF_sublist t fuel _).trans (List.filter_sublist _))

/-- Any two detections kept by the greedy pass, in kept order, have overlap
ratio at most the threshold (ratio normalised by the later one's box). -/
theorem greedyDF_pairwise (t : ℚ) :
    ∀ (fuel : Nat) (l : List Detection),
      (greedyDF t fuel l).Pairwise fun a b => overlap a b ≤ t
  | 0, _ => List.Pairwise.nil
  | _ + 1, [] => List.Pairwise.nil
  | fuel + 1, b :: rest => by
    refine List.Pairwise.cons (fun e he => ?_) (greedyDF_pairwise t fuel _)
    have hmem : e ∈ rest.filter fun e => decide (overlap b e ≤ t) :=
      (greedyDF_sublist t fuel _).subset he
    exact of_decide_eq_true (List.mem_filter.mp hmem).2

/-- A list already pairwise below the threshold is a fixed point of the
greedy pass (given enough fuel). -/
theorem greedyDF_of_pairwise (t : ℚ) :
    ∀ (fuel : Nat) (l : List Detection), l.length ≤ fuel →
      (l.Pairwise fun a b => overlap a b ≤ t) → greedyDF t fuel l = l
  | 0, [], _, _ => rfl
  | 0, _ :: _, h, _ => absurd h (by simp)
  | _ + 1, [], _, _ => rfl
  | fuel + 1, b :: rest, h, hp => by
    have hfilter : (rest.filter fun e => decide (overlap b e ≤ t)) = rest :=
      List.filter_eq_self.mpr fun e he =>
        decide_eq_true ((List.pairwise_cons.mp hp).1 e he)
    show b :: greedyDF t fuel (rest.filter fun e => decide (overlap b e ≤ t))
        = b :: rest
    rw [hfilter,
      greedyDF_of_pairwise t fuel rest (Nat.le_of_succ_le_succ h)
        (List.pairwise_cons.mp hp).2]

/-- Inserting an element that every list element rejects lands at the end. -/
theorem orderedInsert_of_forall_not {α : Type} (r : α → α → Prop)
    [DecidableRel r] (a : α) :
    ∀ l : List α, (∀ b ∈ l, ¬ r a b) → List.orderedInsert r a l = l ++ [a]
  | [], _ => rfl
  | b :: l, h => by
    simp only [List.orderedInsert]
    rw [if_neg (h b (List.Mem.head l)),
      orderedInsert_of_forall_not r a l fun c hc => h c (List.Mem.tail b hc)]
    rfl

/-- Sorting a strictly-descending list by confidence reverses it. -/
theorem insertionSort_of_pairwise_gt :
    ∀ l : List Detection,
      (l.Pairwise fun a b => b.confidence < a.confidence) →
      List.insertionSort confLE l = l.reverse
  | [], _ => rfl
  | a :: l, hp => by
    simp only [List.insertionSort]
    rw [insertionSort_of_pairwise_gt l (List.pairwise_cons.mp hp).2]
    rw [orderedInsert_of_forall_not confLE a l.reverse fun b hb =>
      not_le.mpr ((List.pairwise_cons.mp hp).1 b (List.mem_reverse.mp hb))]
    rw [List.reverse_cons]

/-- In a list sorted ascending by confidence, every element's confidence is
at most the last element's. -/
theorem sorted_le_getLast :
    ∀ (l : List Detection) (hne : l ≠ []), l.Sorted confLE →
      ∀ e ∈ l, e.confidence ≤ (l.getLast hne).confidence
  | [], hne, _, _, _ => absurd rfl hne
  | [a], _, _, e, he => by
    rw [List.mem_singleton.mp he]; exact le_refl _
  | a :: b :: rest, _, h, e, he => by
    rw [List.getLast_cons (List.cons_ne_nil b rest)]
    rcases List.mem_cons.mp he with rfl | he'
    · exact (List.pairwise_cons.mp h).1 _ (List.getLast_mem _)
    · exact sorted_le_getLast (b :: rest) (List.cons_ne_nil b rest)
        (List.pairwise_cons.mp h).2 e he'

/-! ## Properties of `non_max_suppression` derived through the equivalence -/

/-- The suppressed list is a sublist of the reversed confidence-sorted list. -/
theorem nms_sublist_sorted (dets : List Detection) (t : ℚ) :
    (non_max_suppression dets t).Sublist
      ((List.insertionSort confLE dets).reverse) := by
  rw [nms_eq_spec, specSuppress, greedyD]
  exact greedyDF_sublist t _ _

/-- Everything kept by `non_max_suppression` is an element of the input. -/
theorem nms_mem (dets : List Detection) (t : ℚ) :
    ∀ d ∈ non_max_suppression dets t, d ∈ dets := fun _ hd =>
  (List.perm_insertionSort confLE dets).subset
    (List.mem_reverse.mp ((nms_sublist_sorted dets t).subset hd))

/-- No input occurrence is kept twice by `non_max_suppression`. -/
theorem nms_count_le (dets : List Detection) (t : ℚ) (d : Detection) :
    (non_max_suppression dets t).count d ≤ dets.count d := by
  have h := (nms_sublist_sorted dets t).count_le d
  rwa [List.count_reverse,
    (List.perm_insertionSort confLE dets).count_eq d] at h

/-- Detections kept by `non_max_suppression`, in kept order, pairwise have
overlap ratio at most the threshold. -/
theorem nms_pairwise (dets : List Detection) (t : ℚ) :
    (non_max_suppression dets t).Pairwise fun a b => overlap a b ≤ t := by
  rw [nms_eq_spec, specSuppress, greedyD]
  exact greedyDF_pairwise t _ _

/-- On a nonempty input, `non_max_suppression` keeps at least one detection,
and its first kept detection has maximal confidence. -/
theorem nms_head_max (dets : List Detection) (t : ℚ) (hne : dets ≠ []) :
    ∃ b rest, non_max_suppression dets t = b :: rest ∧
      ∀ e ∈ dets, e.confidence ≤ b.confidence := by
  have hs : List.insertionSort confLE dets ≠ [] := fun h =>
    hne (List.eq_nil_of_length_eq_zero
      (by rw [← (List.perm_insertionSort confLE dets).length_eq, h]; rfl))
  refine ⟨(List.insertionSort confLE dets).getLast hs,
    greedyDF t ((List.insertionSort confLE dets).reverse.length - 1)
      (((List.insertionSort confLE dets).dropLast.reverse).filter fun e =>
        decide (overlap ((List.insertionSort confLE dets).getLast hs) e ≤ t)),
    ?_, ?_⟩
  · rw [nms_eq_spec, specSuppress, greedyD,
      reverse_eq_getLast_cons (List.insertionSort confLE dets) hs]
    rfl
  · intro e he
    exact sorted_le_getLast (List.insertionSort confLE dets) hs
      (List.sorted_insertionSort confLE dets) e
      ((List.perm_insertionSort confLE dets).mem_iff.mpr he)

/-! ## Idempotence analysis -/

/-- The output of `non_max_suppression` is sorted descending by confidence. -/
theorem nms_sorted_ge (dets : List Detection) (t : ℚ) :
    (non_max_suppression dets t).Pairwise
      fun a b => b.confidence ≤ a.confidence := by
  have hrev : ((List.insertionSort confLE dets).reverse).Pairwise
      fun a b => b.confidence ≤ a.confidence :=
    List.pairwise_reverse.mpr (List.sorted_insertionSort confLE dets)
  exact hrev.sublist (nms_sublist_sorted dets t)

/-- On inputs whose confidences are pairwise distinct, a second suppression
pass returns the first pass's output unchanged. -/
theorem nms_idempotent_of_distinct (dets : List Detection) (t : ℚ)
    (hd : dets.Pairwise fun a b => a.confidence ≠ b.confidence) :
    non_max_suppression (non_max_suppression dets t) t
      = non_max_suppression dets t := by
  have hne' : (non_max_suppression dets t).Pairwise
      fun a b => a.confidence ≠ b.confidence := by
    have h₁ : (List.insertionSort confLE dets).Pairwise
        fun a b => a.confidence ≠ b.confidence :=
      ((List.perm_insertionSort confLE dets).pairwise_iff
        fun h => Ne.symm h).mpr hd
    have h₂ : ((List.insertionSort confLE dets).reverse).Pairwise
        fun a b => a.confidence ≠ b.confidence :=
      List.pairwise_reverse.mpr (h₁.imp fun h => Ne.symm h)
    exact h₂.sublist (nms_sublist_sorted dets t)
  have hdesc : (non_max_suppression dets t).Pairwise
      fun a b => b.confidence < a.confidence :=
    ((nms_sorted_ge dets t).and hne').imp
      fun h => lt_of_le_of_ne h.1 (Ne.symm h.2)
  rw [nms_eq_spec (non_max_suppression dets t) t, specSuppress,
    insertionSort_of_pairwise_gt _ hdesc, List.reverse_reverse, greedyD,
    greedyDF_of_pairwise t _ _ (le_refl _) (nms_pairwise dets t)]

/-! ## The detection pipeline -/

/-- An opaque pixel buffer.  The pipeline's verified control flow never
inspects pixels; images only flow through the external CV primitives. -/
structure Image where
  id : Nat
deriving DecidableEq, Repr, Inhabited

/-- An opaque contour token returned by the contour-extraction primitive. -/
structure Contour where
  id : Nat
deriving DecidableEq, Repr, Inhabited

/-- The per-call parameter dict
`{'min_radius', 'max_radius', 'sensitivity', 'min_distance'}`. -/
structure DetectionParams where
  min_radius : Int
  max_radius : Int
  sensitivity : Int
  min_distance : Int
deriving DecidableEq, Repr

/-- The fallback used by `segment_plaques` when `params is None`:
`{'min_radius': 5, 'max_radius': 50, 'sensitivity': 30, 'min_distance': 20}`. -/
def defaultParams : DetectionParams := ⟨5, 50, 30, 20⟩

/-- The external OpenCV primitives used by the pipeline, as opaque functions.
`houghCircles` models `cv2.HoughCircles` followed by the source's
`np.uint16(np.around(...))` / `int(...)` conversion, returning integer
`(x, y, r)` triples, with `none` for the `circles is None` case.
`contourArea` and `minEnclosingCircle` return exact rationals standing for
the floats `cv2` produces. -/
structure CVPrims where
  imread : String → Option Image
  cvtColorBGR2RGB : Image → Image
  cvtColorRGB2GRAY : Image → Image
  gaussianBlur : Image → Image
  clahe : Image → Image
  houghCircles : Image → DetectionParams → Option (List (Int × Int × Int))
  adaptiveThreshold : Image → Image
  morphologyEx : Image → Image
  findContours : Image → List Contour
  contourArea : Contour → ℚ
  minEnclosingCircle : Contour → (ℚ × ℚ) × ℚ

/-- The error taxonomy of the spec (§7).  The source raises only the
image-load `ValueError` (spec name `ImageLoadError`), carrying the path; the
`InvalidParameters` case is listed by the spec but never raised anywhere in
the source. -/
inductive DetectError where
  | imageLoadError (path : String)
  | invalidParameters
deriving DecidableEq, Repr

/-- `PlaqueDetector.preprocess_image`: `cv2.imread`, raise on `None`, else
convert BGR→RGB and return both buffers. -/
def preprocess_image (prims : CVPrims) (path : String) :
    Except DetectError (Image × Image) :=
  match prims.imread path with
  | none => .error (.imageLoadError path)
  | some img => .ok (img, prims.cvtColorBGR2RGB img)

/-- Python's `int()` on a (rational-valued) float: truncation toward zero. -/
def ratTrunc (q : ℚ) : Int := if 0 ≤ q then q.floor else -((-q).floor)

/-- `PlaqueDetector.detect_by_thresholding`: adaptive threshold, morphological
opening, outer contours, then keep each contour whose area lies strictly
between `min_radius**2 * 3.14` and `max_radius**2 * 3.14` and whose minimum
enclosing circle has radius in `[min_radius, max_radius]`; accepted contours
become detections with confidence 0.7. -/
def detect_by_thresholding (prims : CVPrims) (gray_image : Image)
    (params : DetectionParams) : List Detection :=
  let thresh := prims.adaptiveThreshold gray_image
  let cleaned := prims.morphologyEx thresh
  let contours := prims.findContours cleaned
  let min_area : ℚ := Rat.divInt (params.min_radius * params.min_radius * 314) 100
  let max_area : ℚ := Rat.divInt (params.max_radius * params.max_radius * 314) 100
  contours.filterMap fun contour =>
    let area := prims.contourArea contour
    if min_area < area ∧ area < max_area then
      let xyr := prims.minEnclosingCircle contour
      if (params.min_radius : ℚ) ≤ xyr.2 ∧ xyr.2 ≤ (params.max_radius : ℚ) then
        some ⟨ratTrunc xyr.1.1, ratTrunc xyr.1.2, ratTrunc xyr.2, mkRat 7 10⟩
      else none
    else none

/-- The Hough branch of `segment_plaques`: every circle returned by
`cv2.HoughCircles` becomes a detection with confidence 0.8 (no further
radius check in the source). -/
def houghDetections (prims : CVPrims) (enhanced : Image)
    (params : DetectionParams) : List Detection :=
  match prims.houghCircles enhanced params with
  | none => []
  | some circles => circles.map fun c => ⟨c.1, c.2.1, c.2.2, mkRat 4 5⟩

/-- `PlaqueDetector.segment_plaques`: default the params, grayscale, blur,
CLAHE, Hough circles, threshold-contour detections, concatenate, suppress. -/
def segment_plaques (prims : CVPrims) (image : Image)
    (params? : Option DetectionParams) : List Detection :=
  let params := params?.getD defaultParams
  let gray := prims.cvtColorRGB2GRAY image
  let blurred := prims.gaussianBlur gray
  let enhanced := prims.clahe blurred
  let detections := houghDetections prims enhanced params
    ++ detect_by_thresholding prims enhanced params
  non_max_suppression detections defaultOverlapThresh

/-- `PlaqueDetector.detect`: preprocess (propagating the load error), then
segment with the given params. -/
def detect (prims : CVPrims) (image_path : String)
    (params? : Option DetectionParams) : Except DetectError (List Detection) :=
  match preprocess_image prims image_path with
  | .error e => .error e
  | .ok (_, img_rgb) => .ok (segment_plaques prims img_rgb params?)

/-! ## Truncation bounds -/

/-- Truncation toward zero is the floor for nonnegative values and the
ceiling for negative ones. -/
theorem ratTrunc_eq (q : ℚ) : ratTrunc q = if 0 ≤ q then ⌊q⌋ else ⌈q⌉ := by
  rw [ratTrunc]
  rcases le_or_lt 0 q with h | h
  · rw [if_pos h, if_pos h]; rfl
  · rw [if_neg (not_le.mpr h), if_neg (not_le.mpr h)]
    rw [show ((-q).floor : Int) = ⌊-q⌋ from rfl, Int.floor_neg, neg_neg]

/-- If an integer lower bound holds for a rational, it holds for its
truncation toward zero. -/
theorem le_ratTrunc {q : ℚ} {mn : Int} (h : (mn : ℚ) ≤ q) : mn ≤ ratTrunc q := by
  rw [ratTrunc_eq]
  rcases le_or_lt 0 q with h0 | h0
  · rw [if_pos h0]; exact Int.le_floor.mpr h
  · rw [if_neg (not_le.mpr h0)]
    calc mn = ⌈(mn : ℚ)⌉ := (Int.ceil_intCast mn).symm
    _ ≤ ⌈q⌉ := Int.ceil_mono h

/-- If an integer upper bound holds for a rational, it holds for its
truncation toward zero. -/
theorem ratTrunc_le {q : ℚ} {mx : Int} (h : q ≤ (mx : ℚ)) : ratTrunc q ≤ mx := by
  rw [ratTrunc_eq]
  rcases le_or_lt 0 q with h0 | h0
  · rw [if_pos h0]
    calc ⌊q⌋ ≤ ⌊(mx : ℚ)⌋ := Int.floor_le_floor h
    _ = mx := Int.floor_intCast mx
  · rw [if_neg (not_le.mpr h0)]; exact Int.ceil_le.mpr h

/-! ## Membership characterisations of the pipeline stages -/

/-- A successful `detect` call is a `segment_plaques` run on the RGB
conversion of the loaded image. -/
theorem detect_ok_eq (prims : CVPrims) (path : String)
    (params? : Option DetectionParams) (l : List Detection)
    (hok : detect prims path params? = .ok l) :
    ∃ img, prims.imread path = some img
      ∧ l = segment_plaques prims (prims.cvtColorBGR2RGB img) params? := by
  unfold detect preprocess_image at hok
  cases h : prims.imread path with
  | none => rw [h] at hok; cases hok
  | some img =>
    rw [h] at hok
    exact ⟨img, rfl, (Except.ok.inj hok).symm⟩

/-- Detections produced by `segment_plaques` come from the concatenation of
the two candidate generators run on the enhanced buffer. -/
theorem mem_segment_plaques (prims : CVPrims) (image : Image)
    (params? : Option DetectionParams) (d : Detection)
    (hd : d ∈ segment_plaques prims image params?) :
    d ∈ houghDetections prims
        (prims.clahe (prims.gaussianBlur (prims.cvtColorRGB2GRAY image)))
        (params?.getD defaultParams)
      ++ detect_by_thresholding prims
        (prims.clahe (prims.gaussianBlur (prims.cvtColorRGB2GRAY image)))
        (params?.getD defaultParams) :=
  nms_mem _ _ d hd

/-- Candidates of the Hough branch are exactly the returned circles, each
with confidence 0.8. -/
theorem mem_houghDetections (prims : CVPrims) (img : Image)
    (p : DetectionParams) (d : Detection)
    (hd : d ∈ houghDetections prims img p) :
    ∃ cs, prims.houghCircles img p = some cs
      ∧ ∃ c ∈ cs, d = ⟨c.1, c.2.1, c.2.2, mkRat 4 5⟩ := by
  unfold houghDetections at hd
  cases h : prims.houghCircles img p with
  | none => rw [h] at hd; cases hd
  | some cs =>
    rw [h] at hd
    obtain ⟨c, hc, rfl⟩ := List.mem_map.mp hd
    exact ⟨cs, rfl, c, hc, rfl⟩

/-- Candidates of the threshold-contour branch come from a contour whose
area passes the strict `3.14·r²` filter and whose minimum enclosing circle
has radius within bounds; the detection stores the truncated circle data
with confidence 0.7. -/
theorem mem_detect_by_thresholding (prims : CVPrims) (gray_image : Image)
    (p : DetectionParams) (d : Detection)
    (hd : d ∈ detect_by_thresholding prims gray_image p) :
    ∃ c ∈ prims.findContours (prims.morphologyEx (prims.adaptiveThreshold gray_image)),
      (Rat.divInt (p.min_radius * p.min_radius * 314) 100 < prims.contourArea c
        ∧ prims.contourArea c < Rat.divInt (p.max_radius * p.max_radius * 314) 100)
      ∧ ((p.min_radius : ℚ) ≤ (prims.minEnclosingCircle c).2
        ∧ (prims.minEnclosingCircle c).2 ≤ (p.max_radius : ℚ))
      ∧ d = ⟨ratTrunc (prims.minEnclosingCircle c).1.1,
          ratTrunc (prims.minEnclosingCircle c).1.2,
          ratTrunc (prims.minEnclosingCircle c).2, mkRat 7 10⟩ := by
  unfold detect_by_thresholding at hd
  obtain ⟨c, hc, hf⟩ := List.mem_filterMap.mp hd
  dsimp only at hf
  refine ⟨c, hc, ?_⟩
  by_cases h1 : Rat.divInt (p.min_radius * p.min_radius * 314) 100
      < prims.contourArea c
    ∧ prims.contourArea c < Rat.divInt (p.max_radius * p.max_radius * 314) 100
  · rw [if_pos h1] at hf
    by_cases h2 : (p.min_radius : ℚ) ≤ (prims.minEnclosingCircle c).2
      ∧ (prims.minEnclosingCircle c).2 ≤ (p.max_radius : ℚ)
    · rw [if_pos h2] at hf
      exact ⟨h1, h2, (Option.some.inj hf).symm⟩
    · rw [if_neg h2] at hf; cases hf
  · rw [if_neg h1] at hf; cases hf

/-! ## Concrete primitive instances for witnesses -/

/-- A concrete opaque image. -/
def cImage : Image := ⟨0⟩

/-- A concrete opaque contour. -/
def cContour : Contour := ⟨0⟩

/-- Concrete CV primitives: loading fails only for `"missing.png"`, the
Hough call finds one circle of radius 7 at (10, 10), and contour extraction
finds one contour of area 200 whose enclosing circle has radius 8. -/
def cPrims : CVPrims :=
  ⟨fun path => if path = "missing.png" then none else some cImage,
    id, id, id, id,
    fun _ _ => some [(10, 10, 7)],
    id, id,
    fun _ => [cContour],
    fun _ => mkRat 200 1,
    fun _ => ((8, 8), 8)⟩

/-! ## Claims -/

/-- **C1** — `non_max_suppression` implements greedy NMS over the
center±radius axis-aligned boxes exactly as the spec's `suppress` describes
it: sort ascending by confidence, repeatedly keep the highest-confidence
remaining detection, and discard it together with every remaining detection
whose overlap ratio — intersection area over the *compared* detection's box
area, not the union — exceeds the threshold; the threshold used at the
pipeline's single call site is the default 0.5. -/
theorem C1_nms_is_greedy_spec :
    (∀ (dets : List Detection) (t : ℚ),
      non_max_suppression dets t = specSuppress t dets)
    ∧ defaultOverlapThresh = mkRat 1 2 :=
  ⟨nms_eq_spec, rfl⟩

/-- **C2** (amended) — `detect` performs no parameter validation at all: no
call ever fails with `InvalidParameters`, not even when
`min_radius ≥ max_radius`; detection simply runs. -/
theorem C2_no_invalid_parameters_rejection (prims : CVPrims) (path : String)
    (params? : Option DetectionParams) :
    detect prims path params? ≠ Except.error DetectError.invalidParameters := by
  intro hcontra
  unfold detect preprocess_image at hcontra
  cases h : prims.imread path with
  | none =>
    rw [h] at hcontra
    cases Except.error.inj hcontra
  | some img => rw [h] at hcontra; cases hcontra

/-- **C2** counterexample — with `min_radius=60 ≥ max_radius=50` nothing is
rejected and no `InvalidParameters` is raised: detection runs and returns
the Hough candidate (whose radius the Hough branch never re-checks). -/
theorem C2_counterexample_inverted_radii_accepted :
    detect cPrims "plate.png" (some ⟨60, 50, 30, 20⟩)
      = Except.ok [⟨10, 10, 7, mkRat 4 5⟩] := rfl

/-- **C3** — radius bound: every detection returned by a successful `detect`
has radius in `[min_radius, max_radius]`.  The threshold-contour branch's
bound is enforced by the source code; the Hough branch performs no radius
check in the source, so its bound rests on the contract of the external
`cv2.HoughCircles` call — modelled from the spec (§4.2: accepted circles
have some radius in `[min_radius, max_radius]`) as the hypothesis
`hough_contract`. -/
theorem C3_radius_bound (prims : CVPrims) (path : String) (p : DetectionParams)
    (l : List Detection)
    (hough_contract : ∀ img cs, prims.houghCircles img p = some cs →
      ∀ c ∈ cs, p.min_radius ≤ c.2.2 ∧ c.2.2 ≤ p.max_radius)
    (hok : detect prims path (some p) = .ok l) :
    ∀ d ∈ l, p.min_radius ≤ d.radius ∧ d.radius ≤ p.max_radius := by
  intro d hd
  obtain ⟨img, -, rfl⟩ := detect_ok_eq prims path (some p) l hok
  have hmem := mem_segment_plaques prims (prims.cvtColorBGR2RGB img) (some p) d hd
  rcases List.mem_append.mp hmem with hh | ht
  · obtain ⟨cs, hcs, c, hc, rfl⟩ := mem_houghDetections _ _ _ _ hh
    exact hough_contract _ cs hcs c hc
  · obtain ⟨c, -, -, ⟨hlo, hhi⟩, rfl⟩ := mem_detect_by_thresholding _ _ _ _ ht
    exact ⟨le_ratTrunc hlo, ratTrunc_le hhi⟩

/-- **C3** witness: a concrete run with the default parameter values, checked
on the returned detection. -/
theorem C3_witness :
    (5 : Int) ≤ (⟨10, 10, 7, mkRat 4 5⟩ : Detection).radius
      ∧ (⟨10, 10, 7, mkRat 4 5⟩ : Detection).radius ≤ (50 : Int) :=
  C3_radius_bound cPrims "plate.png" ⟨5, 50, 30, 20⟩ [⟨10, 10, 7, mkRat 4 5⟩]
    (fun img cs hcs => by
      obtain rfl : [((10 : Int), (10 : Int), (7 : Int))] = cs := Option.some.inj hcs
      intro c hc
      rw [List.mem_singleton.mp hc]
      exact ⟨by decide, by decide⟩)
    rfl ⟨10, 10, 7, mkRat 4 5⟩ (by decide)

/-- **C4** — no-overlap invariant: any two detections kept by
`non_max_suppression`, taken in the order they were selected as "current
best", have overlap ratio (normalised by the later one's box area, the
direction in which the loop evaluated it) at most the threshold. -/
theorem C4_no_overlap_invariant (dets : List Detection) (t : ℚ) :
    (non_max_suppression dets t).Pairwise fun a b => overlap a b ≤ t :=
  nms_pairwise dets t

/-- Two far-apart detections with tied confidence 0.8: the suppression loop
reverses their order on every run. -/
def cd0 : Detection := ⟨0, 0, 1, mkRat 4 5⟩

/-- See `cd0`. -/
def cd1 : Detection := ⟨100, 100, 1, mkRat 4 5⟩

/-- **C5** counterexample — suppression is *not* idempotent as stated: on two
non-overlapping detections with equal confidence, the loop picks from the
back of the (stable-)sorted index list, so a second run returns the kept
detections in the opposite order. -/
theorem C5_counterexample_tied_confidences :
    non_max_suppression
        (non_max_suppression [cd0, cd1] (mkRat 1 2)) (mkRat 1 2)
      ≠ non_max_suppression [cd0, cd1] (mkRat 1 2) := by decide

/-- **C5** (amended) — suppression is idempotent on every input whose
confidences are pairwise distinct (with tied confidences a second run can
permute the output, and with asymmetric overlaps it can even drop kept
detections). -/
theorem C5_idempotent_on_distinct_confidences (dets : List Detection) (t : ℚ)
    (h : dets.Pairwise fun a b => a.confidence ≠ b.confidence) :
    non_max_suppression (non_max_suppression dets t) t
      = non_max_suppression dets t :=
  nms_idempotent_of_distinct dets t h

/-- **C5** witness: a concrete two-detection run with distinct confidences. -/
theorem C5_witness :
    (List.Pairwise (fun a b : Detection => a.confidence ≠ b.confidence)
        [⟨0, 0, 1, mkRat 4 5⟩, ⟨100, 100, 1, mkRat 7 10⟩])
    ∧ non_max_suppression
        (non_max_suppression [⟨0, 0, 1, mkRat 4 5⟩, ⟨100, 100, 1, mkRat 7 10⟩]
          (mkRat 1 2)) (mkRat 1 2)
      = non_max_suppression [⟨0, 0, 1, mkRat 4 5⟩, ⟨100, 100, 1, mkRat 7 10⟩]
          (mkRat 1 2) :=
  ⟨by decide,
    C5_idempotent_on_distinct_confidences
      [⟨0, 0, 1, mkRat 4 5⟩, ⟨100, 100, 1, mkRat 7 10⟩] (mkRat 1 2) (by decide)⟩

/-- **C6** — determinism: `detect` is a pure function of the image, the
parameters, and the (deterministic) CV primitives; two results of the same
call coincide. -/
theorem C6_determinism (prims : CVPrims) (path : String)
    (params? : Option DetectionParams)
    (r₁ r₂ : Except DetectError (List Detection))
    (h₁ : detect prims path params? = r₁)
    (h₂ : detect prims path params? = r₂) : r₁ = r₂ :=
  h₁.symm.trans h₂

/-- **C6** witness: two concrete runs of the same call agree. -/
theorem C6_witness :
    (Except.ok [(⟨10, 10, 7, mkRat 4 5⟩ : Detection)]
        : Except DetectError (List Detection))
      = Except.ok [⟨10, 10, 7, mkRat 4 5⟩] :=
  C6_determinism cPrims "plate.png" none _ _ rfl rfl

/-- **C7** (amended) — area filter of the threshold-contour detector: a
contour survives to a detection only if its area lies strictly between
`min_radius² · 3.14` and `max_radius² · 3.14` (the literal constant `3.14`
of the source, not the mathematical π) and the fitted minimum enclosing
circle's radius lies in `[min_radius, max_radius]`. -/
theorem C7_area_filter_uses_314 (prims : CVPrims) (gray_image : Image)
    (p : DetectionParams) :
    ∀ d ∈ detect_by_thresholding prims gray_image p,
      ∃ c ∈ prims.findContours
          (prims.morphologyEx (prims.adaptiveThreshold gray_image)),
        (Rat.divInt (p.min_radius * p.min_radius * 314) 100 < prims.contourArea c
          ∧ prims.contourArea c
            < Rat.divInt (p.max_radius * p.max_radius * 314) 100)
        ∧ ((p.min_radius : ℚ) ≤ (prims.minEnclosingCircle c).2
          ∧ (prims.minEnclosingCircle c).2 ≤ (p.max_radius : ℚ))
        ∧ d = ⟨ratTrunc (prims.minEnclosingCircle c).1.1,
            ratTrunc (prims.minEnclosingCircle c).1.2,
            ratTrunc (prims.minEnclosingCircle c).2, mkRat 7 10⟩ :=
  fun d hd => mem_detect_by_thresholding prims gray_image p d hd

/-- Primitives for the C7 counterexample: one contour of area 1256.5, whose
minimum enclosing circle has radius 30. -/
def c7Prims : CVPrims :=
  ⟨fun _ => some cImage, id, id, id, id, fun _ _ => none, id, id,
    fun _ => [cContour], fun _ => mkRat 2513 2, fun _ => ((5, 5), 30)⟩

/-- **C7** counterexample — the claim's strict bound `π·min_radius² < area`
with the mathematical constant π is *not* what the code checks: with
`min_radius = 20` a contour of area `1256.5` is accepted (the code's bound
is `20²·3.14 = 1256 < 1256.5`), although `1256.5 < π·20²`. -/
theorem C7_counterexample_pi_bound :
    detect_by_thresholding c7Prims cImage ⟨20, 50, 30, 20⟩
        = [⟨5, 5, 30, mkRat 7 10⟩]
      ∧ ¬ (Real.pi * 20 ^ 2 < ((c7Prims.contourArea cContour : ℚ) : ℝ)) := by
  constructor
  · rfl
  · have hc : (c7Prims.contourArea cContour : ℚ) = (2513 : ℚ) / 2 := by
      rw [show c7Prims.contourArea cContour = mkRat 2513 2 from rfl,
        Rat.mkRat_eq_div]
      norm_num
    rw [hc]
    push_cast
    intro hlt
    nlinarith [Real.pi_gt_d6]

/-- **C7** witness: a concrete accepted contour together with its area and
radius certificates. -/
theorem C7_witness :
    ∃ c ∈ cPrims.findContours
        (cPrims.morphologyEx (cPrims.adaptiveThreshold cImage)),
      (Rat.divInt (defaultParams.min_radius * defaultParams.min_radius * 314) 100
          < cPrims.contourArea c
        ∧ cPrims.contourArea c
          < Rat.divInt (defaultParams.max_radius * defaultParams.max_radius * 314) 100)
      ∧ ((defaultParams.min_radius : ℚ) ≤ (cPrims.minEnclosingCircle c).2
        ∧ (cPrims.minEnclosingCircle c).2 ≤ (defaultParams.max_radius : ℚ))
      ∧ (⟨8, 8, 8, mkRat 7 10⟩ : Detection)
        = ⟨ratTrunc (cPrims.minEnclosingCircle c).1.1,
            ratTrunc (cPrims.minEnclosingCircle c).1.2,
            ratTrunc (cPrims.minEnclosingCircle c).2, mkRat 7 10⟩ :=
  C7_area_filter_uses_314 cPrims cImage defaultParams
    ⟨8, 8, 8, mkRat 7 10⟩ (by decide)

/-- **C8** — fixed confidences: every Hough-branch candidate has confidence
exactly 0.8, every threshold-branch candidate exactly 0.7, and every
detection returned by a successful `detect` carries one of those two
values. -/
theorem C8_fixed_confidences (prims : CVPrims) (img : Image)
    (p : DetectionParams) (path : String) (params? : Option DetectionParams)
    (l : List Detection) (hok : detect prims path params? = .ok l) :
    (∀ d ∈ houghDetections prims img p, d.confidence = mkRat 4 5)
    ∧ (∀ d ∈ detect_by_thresholding prims img p, d.confidence = mkRat 7 10)
    ∧ (∀ d ∈ l, d.confidence = mkRat 4 5 ∨ d.confidence = mkRat 7 10) := by
  have hhough : ∀ (img' : Image) (p' : DetectionParams) (d : Detection),
      d ∈ houghDetections prims img' p' → d.confidence = mkRat 4 5 := by
    intro img' p' d hd
    obtain ⟨cs, -, c, -, rfl⟩ := mem_houghDetections prims img' p' d hd
    rfl
  have hthresh : ∀ (img' : Image) (p' : DetectionParams) (d : Detection),
      d ∈ detect_by_thresholding prims img' p' → d.confidence = mkRat 7 10 := by
    intro img' p' d hd
    obtain ⟨c, -, -, -, rfl⟩ := mem_detect_by_thresholding prims img' p' d hd
    rfl
  refine ⟨fun d hd => hhough img p d hd, fun d hd => hthresh img p d hd, ?_⟩
  intro d hd
  obtain ⟨img', -, rfl⟩ := detect_ok_eq prims path params? l hok
  rcases List.mem_append.mp
      (mem_segment_plaques prims (prims.cvtColorBGR2RGB img') params? d hd)
    with hh | ht
  · exact Or.inl (hhough _ _ _ hh)
  · exact Or.inr (hthresh _ _ _ ht)

/-- **C8** witness: a concrete run exercising both branches and the merged
output. -/
theorem C8_witness :
    (∀ d ∈ houghDetections cPrims cImage defaultParams,
      d.confidence = mkRat 4 5)
    ∧ (∀ d ∈ detect_by_thresholding cPrims cImage defaultParams,
      d.confidence = mkRat 7 10)
    ∧ (∀ d ∈ [(⟨10, 10, 7, mkRat 4 5⟩ : Detection)],
      d.confidence = mkRat 4 5 ∨ d.confidence = mkRat 7 10) :=
  C8_fixed_confidences cPrims cImage defaultParams "plate.png" none
    [⟨10, 10, 7, mkRat 4 5⟩] rfl

/-- **C9** — `detect` fails with the image-load error exactly when the image
fails to load (propagating the offending path unchanged), and returns `.ok`
— possibly with an empty list — on every image that preprocesses. -/
theorem C9_image_load_error_iff (prims : CVPrims) (path : String)
    (params? : Option DetectionParams) :
    (∀ e, detect prims path params? = .error e
      ↔ prims.imread path = none ∧ e = .imageLoadError path)
    ∧ (prims.imread path ≠ none → ∃ l, detect prims path params? = .ok l) := by
  cases h : prims.imread path with
  | none =>
    refine ⟨fun e => ⟨fun he => ?_, fun he => ?_⟩, fun hne => absurd rfl hne⟩
    · unfold detect preprocess_image at he
      rw [h] at he
      exact ⟨rfl, (Except.error.inj he).symm⟩
    · obtain ⟨-, rfl⟩ := he
      unfold detect preprocess_image
      rw [h]
  | some img =>
    refine ⟨fun e => ⟨fun he => ?_, fun he => ?_⟩, fun _ => ?_⟩
    · unfold detect preprocess_image at he
      rw [h] at he
      cases he
    · obtain ⟨hnone, -⟩ := he
      cases hnone
    · refine ⟨segment_plaques prims (prims.cvtColorBGR2RGB img) params?, ?_⟩
      unfold detect preprocess_image
      rw [h]

/-- **C9** witness: a failing load yields the load error with the path, a
successful load yields a result list. -/
theorem C9_witness :
    (detect cPrims "missing.png" none
      = Except.error (DetectError.imageLoadError "missing.png"))
    ∧ ∃ l, detect cPrims "plate.png" none = Except.ok l :=
  ⟨((C9_image_load_error_iff cPrims "missing.png" none).1
      (DetectError.imageLoadError "missing.png")).mpr ⟨rfl, rfl⟩,
    (C9_image_load_error_iff cPrims "plate.png" none).2 (by decide)⟩

/-- **C10** — `non_max_suppression` returns a subset of its input: every kept
detection is an unmodified input element, no input occurrence is kept twice,
the output is nonempty whenever the input is, and a detection of maximal
confidence is always kept. -/
theorem C10_subset_nonempty_max (dets : List Detection) (t : ℚ)
    (hne : dets ≠ []) :
    (∀ d ∈ non_max_suppression dets t, d ∈ dets)
    ∧ (∀ d, (non_max_suppression dets t).count d ≤ dets.count d)
    ∧ non_max_suppression dets t ≠ []
    ∧ ∃ b ∈ non_max_suppression dets t,
        ∀ e ∈ dets, e.confidence ≤ b.confidence := by
  obtain ⟨b, rest, hcons, hmax⟩ := nms_head_max dets t hne
  refine ⟨nms_mem dets t, nms_count_le dets t, ?_, b, ?_, hmax⟩
  · rw [hcons]; exact List.cons_ne_nil b rest
  · rw [hcons]; exact List.Mem.head rest

/-- **C10** witness: a concrete run with one candidate from each branch,
where the overlapping lower-confidence candidate is dropped. -/
theorem C10_witness :
    (∀ d ∈ non_max_suppression
        [(⟨10, 10, 7, mkRat 4 5⟩ : Detection), ⟨8, 8, 8, mkRat 7 10⟩]
        (mkRat 1 2),
      d ∈ [(⟨10, 10, 7, mkRat 4 5⟩ : Detection), ⟨8, 8, 8, mkRat 7 10⟩])
    ∧ (∀ d, (non_max_suppression
        [(⟨10, 10, 7, mkRat 4 5⟩ : Detection), ⟨8, 8, 8, mkRat 7 10⟩]
        (mkRat 1 2)).count d
      ≤ ([(⟨10, 10, 7, mkRat 4 5⟩ : Detection), ⟨8, 8, 8, mkRat 7 10⟩]).count d)
    ∧ non_max_suppression
        [(⟨10, 10, 7, mkRat 4 5⟩ : Detection), ⟨8, 8, 8, mkRat 7 10⟩]
        (mkRat 1 2) ≠ []
    ∧ ∃ b ∈ non_max_suppression
        [(⟨10, 10, 7, mkRat 4 5⟩ : Detection), ⟨8, 8, 8, mkRat 7 10⟩]
        (mkRat 1 2),
        ∀ e ∈ [(⟨10, 10, 7, mkRat 4 5⟩ : Detection), ⟨8, 8, 8, mkRat 7 10⟩],
          e.confidence ≤ b.confidence :=
  C10_subset_nonempty_max
    [⟨10, 10, 7, mkRat 4 5⟩, ⟨8, 8, 8, mkRat 7 10⟩] (mkRat 1 2) (by decide)

end PlaqueCounter
